import Mathlib

/-!
Shallow embedding of the WebOwl hybrid retrieval core
(KnowledgeRetriever.py and OfflineKnowledgeRetriever.py).

Conventions of the embedding:
* Python floats (scores, weights) are modelled as rationals (ℚ); the claims
  under verification are exact algebraic statements about the score formulas.
* Calls into external services (FAISS nearest-neighbour search, the
  sentence-transformer embedder, the langchain text splitter, the Neo4j
  driver, SQLite) are modelled as explicit inputs: the FAISS result is a
  list of (score, index) pairs, the splitter is a function parameter, and
  database contents are passed as lists of record structures.
* Python exceptions are modelled with Except / explicit outcome types;
  a function that returns normally never produces the error constructor.
* Python dicts are modelled as insertion-ordered association lists whose
  keys are unique by construction, matching CPython 3.7+ dict semantics
  (updates keep the position of the key, new keys are appended).
-/

/-! ## Basic Python-style string helpers -/

/-- Python str.lower(), restricted to the ASCII case mapping. -/
def pyLower (s : String) : String := String.mk (s.toList.map Char.toLower)

/-- Python truthiness of an optional string: None and "" are falsy. -/
def truthyStr : Option String → Bool
  | none => false
  | some s => s ≠ ""

/-- Python `a or b` on optional strings (keeps a when truthy, else b). -/
def pyOr (a b : Option String) : Option String := if truthyStr a then a else b

/-- Whether the character list starting here begins with the needle. -/
def charsStartWith : List Char → List Char → Bool
  | [], _ => true
  | _ :: _, [] => false
  | a :: as, b :: bs => a == b && charsStartWith as bs

/-- Whether the needle occurs contiguously inside the haystack. -/
def charsContain (needle : List Char) : List Char → Bool
  | [] => needle.isEmpty
  | b :: bs => charsStartWith needle (b :: bs) || charsContain needle bs

/-- Substring containment, the semantics of Cypher's case-sensitive
CONTAINS operator (and of Python's `in` on strings). -/
def strContains (hay needle : String) : Bool := charsContain needle.toList hay.toList

/-- Word character in the sense of the regex \w (ASCII fragment). -/
def isWordChar (c : Char) : Bool := c.isAlphanum || c == '_'

/-- Accumulator pass splitting a character list into maximal word-character
runs; models re.findall of word tokens. -/
def wordTokensAux : List Char → List Char → List String
  | [], cur => if cur.isEmpty then [] else [String.mk cur.reverse]
  | c :: rest, cur =>
    if isWordChar c then wordTokensAux rest (c :: cur)
    else if cur.isEmpty then wordTokensAux rest cur
    else String.mk cur.reverse :: wordTokensAux rest []

/-- Tokenization used by graph_walk_search: all maximal word-character runs,
in order of occurrence. -/
def wordTokens (s : String) : List String := wordTokensAux s.toList []

/-- Running maximum loop of Python max(..., key=len): a later element
replaces the current best only when strictly longer. -/
def runMaxLen (m : String) : List String → String
  | [] => m
  | t :: ts => if t.length > m.length then runMaxLen t ts else runMaxLen m ts

/-- Python max(terms, key=len) (None on an empty list; Python raises there,
but graph_walk_search guards that case with `if query_terms`). -/
def pyMaxByLen : List String → Option String
  | [] => none
  | t :: ts => some (runMaxLen t ts)

/-- Keyword extraction of graph_walk_search: word tokens of the lowercased
query, longest token wins; the raw query is the fallback for a tokenless
query. -/
def mainTerm (query : String) : String :=
  match pyMaxByLen (wordTokens (pyLower query)) with
  | some t => t
  | none => query

/-! ## Result records -/

/-- One related-asset dict produced by the CONTAINS lookup of
multimodal_search (fields may be null in Neo4j). -/
structure AssetDict where
  url : Option String
  type : Option String
  filename : Option String
deriving DecidableEq

/-- The RetrievedChunk dataclass. Fields that Neo4j can return as null are
optional; graph rows can even carry a null chunk id (OPTIONAL MATCH). -/
structure RetrievedChunk where
  chunk_id : Option String
  text : Option String
  modality : Option String
  score : ℚ
  source_url : Option String
  source_type : String
  source_title : Option String := none
  context_path : Option (List String) := none
  related_assets : Option (List AssetDict) := none
deriving DecidableEq

/-! ## Fusion (hybrid_search, lines 246-278)

The two inner loops of hybrid_search accumulate into the Python dicts
combined_scores (a defaultdict(float)) and all_chunks.  The dicts are
modelled as insertion-ordered association lists with unique keys. -/

/-- Python `combined_scores[k] += v` on a defaultdict(float): update in
place when the key exists, append (k, v) otherwise. -/
def dictAdd (d : List (Option String × ℚ)) (k : Option String) (v : ℚ) :
    List (Option String × ℚ) :=
  match d with
  | [] => [(k, v)]
  | p :: ps => if p.1 == k then (p.1, p.2 + v) :: ps else p :: dictAdd ps k v

/-- One result list folded into combined_scores with its weight
(`combined_scores[chunk.chunk_id] += chunk.score * weight`). -/
def scoreFold (w : ℚ) (l : List RetrievedChunk) (d : List (Option String × ℚ)) :
    List (Option String × ℚ) :=
  l.foldl (fun d c => dictAdd d c.chunk_id (c.score * w)) d

/-- The combined_scores dict after both loops of hybrid_search: semantic
results first, then graph results. -/
def combinedScores (sem graph : List RetrievedChunk) (ws wg : ℚ) :
    List (Option String × ℚ) :=
  scoreFold wg graph (scoreFold ws sem [])

/-- Python `all_chunks[k] = c`: replace in place or append. -/
def dictSet (d : List (Option String × RetrievedChunk)) (k : Option String)
    (c : RetrievedChunk) : List (Option String × RetrievedChunk) :=
  match d with
  | [] => [(k, c)]
  | p :: ps => if p.1 == k then (p.1, c) :: ps else p :: dictSet ps k c

/-- Python truthiness of an optional path list ([] is falsy). -/
def truthyPath : Option (List String) → Bool
  | none => false
  | some l => ¬ l.isEmpty

/-- Graph loop body on all_chunks: insert a new chunk, or merge the context
path into the already stored chunk when the graph result carries one and
the stored chunk does not. -/
def mergeGraphChunk (d : List (Option String × RetrievedChunk))
    (c : RetrievedChunk) : List (Option String × RetrievedChunk) :=
  match d with
  | [] => [(c.chunk_id, c)]
  | p :: ps =>
    if p.1 == c.chunk_id then
      (p.1, if truthyPath c.context_path && !(truthyPath p.2.context_path) then
              { p.2 with context_path := c.context_path } else p.2) :: ps
    else p :: mergeGraphChunk ps c

/-- The all_chunks dict after both loops of hybrid_search. -/
def allChunksMap (sem graph : List RetrievedChunk) :
    List (Option String × RetrievedChunk) :=
  graph.foldl mergeGraphChunk (sem.foldl (fun d c => dictSet d c.chunk_id c) [])

/-- Stable descending insertion by score: an element is placed after every
earlier element whose score is strictly larger, and after no element whose
score is ≤ its own.  Together with sortScoreDesc this is extensionally the
Python `sorted(..., key=lambda x: x[1], reverse=True)`, which is a stable
descending sort on the same key. -/
def insertScoreDesc (x : Option String × ℚ) :
    List (Option String × ℚ) → List (Option String × ℚ)
  | [] => [x]
  | y :: ys => if y.2 > x.2 then y :: insertScoreDesc x ys else x :: y :: ys

/-- Stable sort of the (chunk_id, score) pairs by score, descending. -/
def sortScoreDesc : List (Option String × ℚ) → List (Option String × ℚ)
  | [] => []
  | x :: xs => insertScoreDesc x (sortScoreDesc xs)

/-- Fusion step of hybrid_search (lines 246-278): given the two result
lists it combines scores, sorts descending, truncates to top_k, and emits
the stored chunk of each surviving id with its combined score. -/
def hybrid_search (semantic_results graph_results : List RetrievedChunk)
    (semantic_weight graph_weight : ℚ) (top_k : ℕ) : List RetrievedChunk :=
  let cs := combinedScores semantic_results graph_results semantic_weight graph_weight
  let ac := allChunksMap semantic_results graph_results
  ((sortScoreDesc cs).take top_k).filterMap
    (fun p => (List.lookup p.1 ac).map (fun c => { c with score := p.2 }))

/-! ## Graph model and graph_walk_search (seeded branch, lines 154-210)

The source graph lives in Neo4j.  Pages and Assets are nodes keyed by url
(the url is the unique key per the data model); LINKS_TO and CONTAINS
relationships are edges with their own identity (eid), because Cypher
variable-length patterns never reuse a relationship within one path; the
relationship type plays no role in the pattern [:LINKS_TO|CONTAINS*1..d],
which unions the two types.  HAS_CHUNK edges are kept separately as an
ownership list. -/

inductive NodeLabel
  | Page
  | Asset
deriving DecidableEq

/-- A Page or Asset node (Assets have no title property, so it is none). -/
structure GNode where
  url : String
  title : Option String
  label : NodeLabel
deriving DecidableEq

/-- A LINKS_TO or CONTAINS relationship with its Neo4j identity. -/
structure GEdge where
  eid : ℕ
  src : String
  dst : String
deriving DecidableEq

/-- A Chunk node (text and modality properties may be null). -/
structure ChunkNode where
  id : String
  text : Option String
  modality : Option String
deriving DecidableEq

/-- The read-only source graph snapshot. -/
structure Graph where
  nodes : List GNode
  edges : List GEdge
  owns : List (String × ChunkNode)
deriving DecidableEq

def findNode (g : Graph) (u : String) : Option GNode := g.nodes.find? (·.url == u)

def labelString : NodeLabel → String
  | NodeLabel.Page => "Page"
  | NodeLabel.Asset => "Asset"

/-- Undirected steps available from a node: every not-yet-used relationship
incident to it, paired with the opposite endpoint. -/
def adjSteps (g : Graph) (cur : String) (used : List ℕ) : List (GEdge × String) :=
  (g.edges.filter (fun e =>
      !(used.contains e.eid) && (e.src == cur || e.dst == cur))).map
    (fun e => (e, if e.src == cur then e.dst else e.src))

/-- All matches of the pattern (start)-[:LINKS_TO|CONTAINS*1..fuel]-(end):
paths of 1 to fuel undirected hops with pairwise distinct relationships.
Each result is (depth, end url, urls of the nodes along the path).
accRev carries the urls walked so far, last node first. -/
def walkPathsFrom (g : Graph) : ℕ → String → List ℕ → List String →
    List (ℕ × String × List String)
  | 0, _, _, _ => []
  | fuel + 1, cur, used, accRev =>
    (adjSteps g cur used).flatMap (fun s =>
      (accRev.length, s.2, (s.2 :: accRev).reverse) ::
        walkPathsFrom g fuel s.2 (s.1.eid :: used) (s.2 :: accRev))

/-- One row of the seeded Cypher query before DISTINCT/ORDER BY; the chunk
columns are null when the end node owns no matching chunk. -/
structure WalkRow where
  chunk_id : Option String
  text : Option String
  modality : Option String
  source_url : String
  source_title : Option String
  source_type : String
  depth : ℕ
  path_urls : List String
deriving DecidableEq

/-- The WHERE filter `c.text CONTAINS $query_term OR end.title CONTAINS
$query_term`; Cypher CONTAINS is case-sensitive, and a null operand makes
the comparison null (hence not satisfied). -/
def chunkRowMatches (term : String) (c : ChunkNode) (title : Option String) : Bool :=
  (match c.text with | some t => strContains t term | none => false) ||
  (match title with | some t => strContains t term | none => false)

/-- Rows produced for one seed url: the seed must resolve to a Page node;
every variable-length path yields its end node; ends that are Pages or
Assets produce one row per owned chunk matching the filter, or a single
row with null chunk columns when none matches (OPTIONAL MATCH). -/
def seedRows (g : Graph) (term : String) (seed : String) (max_depth : ℕ) :
    List WalkRow :=
  match findNode g seed with
  | none => []
  | some sn =>
    if sn.label = NodeLabel.Page then
      (walkPathsFrom g max_depth seed [] [seed]).flatMap (fun trip =>
        match findNode g trip.2.1 with
        | none => []
        | some en =>
          let matching := (g.owns.filter (fun oc =>
              oc.1 == trip.2.1 && chunkRowMatches term oc.2 en.title)).map (·.2)
          if matching.isEmpty then
            [⟨none, none, none, trip.2.1, en.title, labelString en.label,
              trip.1, trip.2.2⟩]
          else
            matching.map (fun c =>
              ⟨some c.id, c.text, c.modality, trip.2.1, en.title,
               labelString en.label, trip.1, trip.2.2⟩))
    else []

/-- RETURN DISTINCT: duplicate rows collapse to their first occurrence. -/
def dedupKeepFirst (l : List WalkRow) : List WalkRow :=
  l.foldl (fun acc r => if r ∈ acc then acc else acc ++ [r]) []

/-- String comparison on optional chunk ids for ORDER BY c.id; Neo4j sorts
null after every value in ascending order. -/
def optStrLt : Option String → Option String → Bool
  | some x, some y => decide (x < y)
  | some _, none => true
  | none, _ => false

/-- Strict before relation of ORDER BY depth, c.id. -/
def rowKeyLt (a b : WalkRow) : Bool :=
  a.depth < b.depth || (a.depth == b.depth && optStrLt a.chunk_id b.chunk_id)

/-- Stable ascending insertion for the ORDER BY. -/
def insertRowAsc (x : WalkRow) : List WalkRow → List WalkRow
  | [] => [x]
  | y :: ys => if rowKeyLt x y then x :: y :: ys else y :: insertRowAsc x ys

/-- Stable ascending sort of the rows by (depth, chunk id). -/
def sortRowsAsc : List WalkRow → List WalkRow
  | [] => []
  | x :: xs => insertRowAsc x (sortRowsAsc xs)

/-- Row set of the seeded Cypher query: rows of every seed, deduplicated
(DISTINCT) and ordered (ORDER BY depth, c.id). -/
def graph_walk_rows (g : Graph) (term : String) (start_urls : List String)
    (max_depth : ℕ) : List WalkRow :=
  sortRowsAsc (dedupKeepFirst (start_urls.flatMap (fun s => seedRows g term s max_depth)))

/-- Python loop body turning a row into a RetrievedChunk:
score = 1.0 / (depth + 1), source_type lowercased, path as breadcrumb. -/
def rowToChunk (r : WalkRow) : RetrievedChunk :=
  { chunk_id := r.chunk_id
    text := r.text
    modality := r.modality
    score := 1 / ((r.depth : ℚ) + 1)
    source_url := some r.source_url
    source_type := pyLower r.source_type
    source_title := r.source_title
    context_path := some r.path_urls
    related_assets := none }

/-- graph_walk_search with start_urls given (the seeded branch): extract
the keyword, run the seeded Cypher query, convert each row. -/
def graph_walk_search (g : Graph) (query : String) (start_urls : List String)
    (max_depth : ℕ) : List RetrievedChunk :=
  (graph_walk_rows g (mainTerm query) start_urls max_depth).map rowToChunk

/-- Reachability within a hop bound along undirected LINKS_TO/CONTAINS
edges; used to state that the walk never leaves the max_depth ball. -/
inductive ReachableWithin (g : Graph) : String → String → ℕ → Prop
  | refl (u : String) (n : ℕ) : ReachableWithin g u u n
  | step (u v w : String) (n : ℕ) (e : GEdge) (he : e ∈ g.edges)
      (huv : e.src = u ∧ e.dst = v ∨ e.src = v ∧ e.dst = u)
      (h : ReachableWithin g v w n) : ReachableWithin g u w (n + 1)

/-! ## semantic_search (lines 104-152)

faiss_index.search is external: its output is passed in as a list of
(score, index) pairs (one per requested neighbour; FAISS pads with index
-1 when top_k exceeds the number of stored splits, hence ℤ indices).
index_to_chunk_id is the split-to-chunk dict; the Neo4j chunk lookup is
passed in as the list of rows the UNWIND/MATCH query returns. -/

/-- One row of the chunk-detail query of semantic_search (page_title is
p.url in the Cypher, so it does not appear separately). -/
structure NeoRow where
  chunk_id : String
  text : Option String
  modality : Option String
  page_url : Option String
  asset_url : Option String
  asset_filename : Option String
  asset_type : Option String
deriving DecidableEq

/-- Python dict comprehension over query rows: the last row of a chunk_id
wins. -/
def neoRowFor (db : List NeoRow) (cid : String) : Option NeoRow :=
  db.reverse.find? (·.chunk_id == cid)

/-- semantic_search after the FAISS call: translate every returned index
through index_to_chunk_id (a missing key is a Python KeyError), fetch the
chunk rows, and emit one RetrievedChunk per returned index whose chunk has
a row — without any deduplication of chunk ids. -/
def semantic_search (neighbors : List (ℚ × ℤ))
    (index_to_chunk_id : List (ℤ × String)) (db : List NeoRow) :
    Except String (List RetrievedChunk) := do
  let chunk_ids ← neighbors.mapM (fun p =>
    match List.lookup p.2 index_to_chunk_id with
    | some cid => Except.ok cid
    | none => Except.error "KeyError")
  pure ((chunk_ids.zip neighbors).filterMap (fun q =>
    (neoRowFor db q.1).map (fun data =>
      { chunk_id := some q.1
        text := data.text
        modality := data.modality
        score := q.2.1
        source_url := pyOr data.page_url data.asset_url
        source_type := if truthyStr data.page_url then "page" else "asset"
        source_title := pyOr data.page_url data.asset_filename
        context_path := none
        related_assets := none })))

/-! ## build_vector_index (lines 43-102)

The Neo4j chunk query result is passed in as a list; the langchain
RecursiveCharacterTextSplitter is external and passed as a function. -/

/-- One row of the MATCH (c:Chunk) query. -/
structure DbChunk where
  chunk_id : String
  text : Option String
  modality : Option String
deriving DecidableEq

/-- Python str.strip(): drop leading and trailing whitespace. -/
def pyStrip (s : String) : String :=
  String.mk (((s.toList.dropWhile Char.isWhitespace).reverse.dropWhile
    Char.isWhitespace).reverse)

/-- Python `chunk['text'] and chunk['text'].strip()`: null, empty and
all-whitespace texts are rejected. -/
def pyTruthyText : Option String → Bool
  | none => false
  | some t => t ≠ "" && pyStrip t ≠ ""

/-- The zipped all_split_texts / split_to_chunk_mapping lists: every
non-blank split of every chunk with usable text, paired with its chunk id. -/
def allSplitTexts (split : String → List String) (chunks : List DbChunk) :
    List (String × String) :=
  chunks.flatMap (fun c =>
    if pyTruthyText c.text then
      ((split (c.text.getD "")).filter (fun s => pyStrip s ≠ "")).map
        (fun s => (s, c.chunk_id))
    else [])

/-- Split-to-chunk half of the double mapping (index_to_chunk_id). -/
def indexToChunkId (pairs : List (String × String)) : List (ℕ × String) :=
  pairs.enum.map (fun ip => (ip.1, ip.2.2))

/-- Append a split index to a chunk's index list (chunk_id_to_index). -/
def addSplitIdx (d : List (String × List ℕ)) (k : String) (i : ℕ) :
    List (String × List ℕ) :=
  match d with
  | [] => [(k, [i])]
  | p :: ps => if p.1 == k then (p.1, p.2 ++ [i]) :: ps else p :: addSplitIdx ps k i

/-- Chunk-to-splits half of the double mapping. -/
def chunkIdToIndex (pairs : List (String × String)) : List (String × List ℕ) :=
  pairs.enum.foldl (fun d ip => addSplitIdx d ip.2.2 ip.1) []

/-- Outcome of build_vector_index.  noChunks and noValidText are the two
early `print(...); return` paths; built carries the index content and both
mappings.  The raised constructor is the Python exception channel: no code
path of build_vector_index constructs it, which is exactly what the
error-handling claims are about. -/
inductive BuildOutcome
  | noChunks
  | noValidText
  | built (splits : List (String × String)) (index_to_chunk_id : List (ℕ × String))
      (chunk_id_to_index : List (String × List ℕ))
  | raised (msg : String)
deriving DecidableEq

/-- build_vector_index: empty chunk query → early return; no usable split
text → early return; otherwise the FAISS index over the splits plus the
two split/chunk mappings. -/
def build_vector_index (split : String → List String) (chunks : List DbChunk) :
    BuildOutcome :=
  if chunks.isEmpty then BuildOutcome.noChunks
  else if (allSplitTexts split chunks).isEmpty then BuildOutcome.noValidText
  else BuildOutcome.built (allSplitTexts split chunks)
    (indexToChunkId (allSplitTexts split chunks))
    (chunkIdToIndex (allSplitTexts split chunks))

/-! ## OfflineKnowledgeRetriever.load_offline (lines 132-167)

The persisted directory is modelled by which artifacts exist and their
parsed contents; the FAISS blob is reduced to its record count (ntotal),
the only attribute the surrounding code can observe. -/

/-- Parsed mappings.json. -/
structure MappingsFile where
  index_to_chunk_id : List (ℤ × String)
  chunk_id_to_index : List (String × List ℤ)
deriving DecidableEq

/-- Parsed config.json. -/
structure ConfigFile where
  model_name : String
  total_chunks : ℕ
  index_size : ℕ
deriving DecidableEq

/-- Contents of a persisted offline-retriever directory. -/
structure OfflineDir where
  dirExists : Bool
  faiss_index_bin : Option ℕ
  mappings_json : Option MappingsFile
  config_json : Option ConfigFile
deriving DecidableEq

/-- Retriever state after a successful load. -/
structure OfflineLoadedState where
  faiss_ntotal : Option ℕ
  index_to_chunk_id : List (ℤ × String)
  chunk_id_to_index : List (String × List ℤ)
  config : ConfigFile
deriving DecidableEq

/-- load_offline: a missing directory raises FileNotFoundError; a missing
faiss_index.bin is silently skipped (os.path.exists guard); missing
mappings.json or config.json raise from open(); otherwise every artifact
is loaded as-is — the function compares no record counts. -/
def load_offline (files : OfflineDir) : Except String OfflineLoadedState :=
  if !files.dirExists then Except.error "FileNotFoundError"
  else
    match files.mappings_json with
    | none => Except.error "FileNotFoundError"
    | some m =>
      match files.config_json with
      | none => Except.error "FileNotFoundError"
      | some cfg =>
        Except.ok ⟨files.faiss_index_bin, m.index_to_chunk_id,
                   m.chunk_id_to_index, cfg⟩

/-! ## OfflineKnowledgeRetriever.search (lines 169-207) -/

/-- One row of the chunks SQLite table, in column order. -/
structure SqliteChunkRow where
  chunk_id : String
  text : Option String
  modality : Option String
  page_url : Option String
  asset_url : Option String
  asset_filename : Option String
  asset_type : Option String
  source_url : Option String
  source_type : Option String
  source_title : Option String
deriving DecidableEq

/-- One result dict of the offline search (columns 0,1,2,7,8,9 + score). -/
structure OfflineResult where
  chunk_id : String
  text : Option String
  modality : Option String
  source_url : Option String
  source_type : Option String
  source_title : Option String
  score : ℚ
deriving DecidableEq

/-- Offline search after the FAISS call: indices absent from
index_to_chunk_id (in particular the -1 padding) are skipped by the
`if idx in self.index_to_chunk_id` guard, and chunk ids without a SQLite
row are skipped by the `if row` guard; everything else is emitted with its
FAISS score. -/
def offline_search (neighbors : List (ℚ × ℤ))
    (index_to_chunk_id : List (ℤ × String)) (db : List SqliteChunkRow) :
    List OfflineResult :=
  neighbors.filterMap (fun p =>
    match List.lookup p.2 index_to_chunk_id with
    | none => none
    | some cid =>
      match db.find? (·.chunk_id == cid) with
      | none => none
      | some r =>
        some ⟨r.chunk_id, r.text, r.modality, r.source_url, r.source_type,
              r.source_title, p.1⟩)

/-! ## multimodal_search (lines 212-236)

The Neo4j CONTAINS-assets lookup is passed in as a function returning
Except: a backing-store failure is an error value, and the loop body has
no exception handler, so the first failing lookup aborts the whole call. -/

/-- multimodal_search after semantic_search: for every page result (when
include_assets) fetch its related assets — an empty list is stored as
None — and leave other results untouched. -/
def multimodal_search
    (getAssets : Option String → Except String (List AssetDict))
    (include_assets : Bool) (semantic_results : List RetrievedChunk) :
    Except String (List RetrievedChunk) :=
  semantic_results.mapM (fun c =>
    if c.source_type == "page" && include_assets then do
      let assets ← getAssets c.source_url
      pure { c with related_assets := if assets.isEmpty then none else some assets }
    else pure c)

/-! ## Spec-side definitions used only to compare against the code -/

/-- Stated by the spec: case-insensitive substring match of the term
against chunk text or source title.  This is the claim's predicate, to be
compared with chunkRowMatches, the predicate the Cypher actually applies. -/
def chunkRowMatchesCI (term : String) (c : ChunkNode) (title : Option String) : Bool :=
  (match c.text with | some t => strContains (pyLower t) (pyLower term) | none => false) ||
  (match title with | some t => strContains (pyLower t) (pyLower term) | none => false)

/-! ## Lemmas about combined_scores (claim C1) -/

lemma lookup_dictAdd_self (d : List (Option String × ℚ)) (k : Option String) (v : ℚ) :
    List.lookup k (dictAdd d k v) = some ((List.lookup k d).getD 0 + v) := by
  induction d with
  | nil => simp [dictAdd, List.lookup]
  | cons p ps ih =>
    by_cases h : p.1 = k
    · subst h
      simp [dictAdd, List.lookup]
    · have hb : (p.1 == k) = false := by simpa using h
      have hb2 : (k == p.1) = false := by simpa using Ne.symm h
      simp [dictAdd, List.lookup, hb, hb2, ih]

lemma lookup_dictAdd_ne (d : List (Option String × ℚ)) (k k' : Option String)
    (v : ℚ) (h : k' ≠ k) :
    List.lookup k' (dictAdd d k v) = List.lookup k' d := by
  induction d with
  | nil =>
    have hb : (k' == k) = false := by simpa using h
    simp [dictAdd, List.lookup, hb]
  | cons p ps ih =>
    by_cases hp : p.1 = k
    · subst hp
      have hb : (k' == p.1) = false := by simpa using h
      simp [dictAdd, List.lookup, hb]
    · have hb : (p.1 == k) = false := by simpa using hp
      by_cases hq : k' = p.1
      · subst hq
        simp [dictAdd, List.lookup, hb]
      · have hq2 : (k' == p.1) = false := by simpa using hq
        simp [dictAdd, List.lookup, hb, hq2, ih]

lemma lookup_scoreFold_absent (w : ℚ) (l : List RetrievedChunk)
    (d : List (Option String × ℚ)) (cid : Option String)
    (h : ∀ c ∈ l, c.chunk_id ≠ cid) :
    List.lookup cid (scoreFold w l d) = List.lookup cid d := by
  induction l generalizing d with
  | nil => simp [scoreFold]
  | cons c cs ih =>
    have step : scoreFold w (c :: cs) d
        = scoreFold w cs (dictAdd d c.chunk_id (c.score * w)) := rfl
    rw [step, ih _ (fun x hx => h x (List.mem_cons_of_mem c hx)),
      lookup_dictAdd_ne _ _ _ _ (Ne.symm (h c (List.mem_cons_self c cs)))]

lemma lookup_scoreFold_found (w : ℚ) (l1 l2 : List RetrievedChunk)
    (c : RetrievedChunk) (d : List (Option String × ℚ))
    (h1 : ∀ x ∈ l1, x.chunk_id ≠ c.chunk_id)
    (h2 : ∀ x ∈ l2, x.chunk_id ≠ c.chunk_id) :
    List.lookup c.chunk_id (scoreFold w (l1 ++ c :: l2) d)
      = some ((List.lookup c.chunk_id d).getD 0 + c.score * w) := by
  have hsplit : scoreFold w (l1 ++ c :: l2) d
      = scoreFold w l2 (dictAdd (scoreFold w l1 d) c.chunk_id (c.score * w)) := by
    simp [scoreFold, List.foldl_append]
  rw [hsplit, lookup_scoreFold_absent _ _ _ _ h2, lookup_dictAdd_self,
    lookup_scoreFold_absent _ _ _ _ h1]

lemma nodup_chunk_split (l : List RetrievedChunk) (c : RetrievedChunk)
    (hc : c ∈ l) (h : (l.map (fun x => x.chunk_id)).Nodup) :
    ∃ l1 l2, l = l1 ++ c :: l2 ∧ (∀ x ∈ l1, x.chunk_id ≠ c.chunk_id)
      ∧ (∀ x ∈ l2, x.chunk_id ≠ c.chunk_id) := by
  obtain ⟨l1, l2, rfl⟩ := List.append_of_mem hc
  refine ⟨l1, l2, rfl, ?_, ?_⟩
  · intro x hx hEq
    have h1 := (List.nodup_append.mp (by simpa using h)).2.2
    exact h1 (a := x.chunk_id) (List.mem_map_of_mem _ hx) (by simp [hEq])
  · intro x hx hEq
    have h2 := (List.nodup_append.mp (by simpa using h)).2.1
    have := (List.nodup_cons.mp h2).1
    exact this (by simpa [hEq.symm] using List.mem_map_of_mem (fun y => y.chunk_id) hx)

/-- C1: for every pair of result sets handed to fusion (sets: each chunk_id
occurs at most once per input list) and all weights, the combined score of
a chunk_id only in the semantic set is semantic_weight * its semantic
score; only in the graph set, graph_weight * its graph score; in both, the
sum of the two products (absent contributions count as 0). -/
theorem fusion_combined_score_law (sem graph : List RetrievedChunk) (ws wg : ℚ)
    (hs : (sem.map (fun c => c.chunk_id)).Nodup)
    (hg : (graph.map (fun c => c.chunk_id)).Nodup) :
    (∀ c ∈ sem, (∀ g ∈ graph, g.chunk_id ≠ c.chunk_id) →
        List.lookup c.chunk_id (combinedScores sem graph ws wg) = some (ws * c.score))
    ∧ (∀ g ∈ graph, (∀ c ∈ sem, c.chunk_id ≠ g.chunk_id) →
        List.lookup g.chunk_id (combinedScores sem graph ws wg) = some (wg * g.score))
    ∧ (∀ c ∈ sem, ∀ g ∈ graph, g.chunk_id = c.chunk_id →
        List.lookup c.chunk_id (combinedScores sem graph ws wg)
          = some (ws * c.score + wg * g.score)) := by
  refine ⟨?_, ?_, ?_⟩
  · intro c hc habs
    obtain ⟨l1, l2, rfl, h1, h2⟩ := nodup_chunk_split sem c hc hs
    rw [combinedScores, lookup_scoreFold_absent _ _ _ _ habs,
      lookup_scoreFold_found _ _ _ _ _ h1 h2]
    simp [mul_comm]
  · intro g hgmem habs
    obtain ⟨l1, l2, rfl, h1, h2⟩ := nodup_chunk_split graph g hgmem hg
    rw [combinedScores, lookup_scoreFold_found _ _ _ _ _ h1 h2,
      lookup_scoreFold_absent _ _ _ _ habs]
    simp [mul_comm]
  · intro c hc g hgmem heq
    obtain ⟨g1, g2, rfl, hg1, hg2⟩ := nodup_chunk_split graph g hgmem hg
    obtain ⟨s1, s2, rfl, hs1, hs2⟩ := nodup_chunk_split sem c hc hs
    rw [combinedScores, ← heq, lookup_scoreFold_found _ _ _ _ _ hg1 hg2, heq,
      lookup_scoreFold_found _ _ _ _ _ hs1 hs2]
    simp [mul_comm, add_comm]

/-- Semantic-side sample chunk for exercising the fusion law. -/
def demoSemX : RetrievedChunk :=
  { chunk_id := some "x", text := some "cats are mammals", modality := some "text",
    score := 9/10, source_url := some "u1", source_type := "page" }

/-- Graph-side sample chunk with the same id, different score. -/
def demoGraX : RetrievedChunk :=
  { chunk_id := some "x", text := some "cats are mammals", modality := some "text",
    score := 1/2, source_url := some "u1", source_type := "page",
    context_path := some ["seed", "u1"] }

/-- Witness: the fusion law applied to one-element result sets sharing the
chunk id x with weights 0.7/0.3 yields 0.7 * 0.9 + 0.3 * 0.5. -/
theorem fusion_combined_score_law_witness :
    List.lookup (some "x") (combinedScores [demoSemX] [demoGraX] (7/10) (3/10))
      = some ((7/10) * (9/10) + (3/10) * (1/2)) :=
  (fusion_combined_score_law [demoSemX] [demoGraX] (7/10) (3/10)
      (by decide) (by decide)).2.2 demoSemX (by simp) demoGraX (by simp) rfl

/-! ## Lemmas about the sort, the key sets and the output of hybrid_search
(claims C3 and C5) -/

lemma mem_insertScoreDesc (x z : Option String × ℚ) (l : List (Option String × ℚ)) :
    z ∈ insertScoreDesc x l ↔ z = x ∨ z ∈ l := by
  induction l with
  | nil => simp [insertScoreDesc]
  | cons y ys ih =>
    by_cases h : y.2 > x.2
    · simp [insertScoreDesc, h, ih]
      tauto
    · simp [insertScoreDesc, h]

lemma perm_insertScoreDesc (x : Option String × ℚ) (l : List (Option String × ℚ)) :
    (insertScoreDesc x l).Perm (x :: l) := by
  induction l with
  | nil => simp [insertScoreDesc]
  | cons y ys ih =>
    by_cases h : y.2 > x.2
    · simp only [insertScoreDesc, h, if_pos]
      exact ((ih.cons y).trans (List.Perm.swap x y ys)).symm.symm
    · simp [insertScoreDesc, h]

lemma perm_sortScoreDesc (l : List (Option String × ℚ)) :
    (sortScoreDesc l).Perm l := by
  induction l with
  | nil => simp [sortScoreDesc]
  | cons x xs ih =>
    exact (perm_insertScoreDesc x (sortScoreDesc xs)).trans (ih.cons x)

lemma pairwise_insertScoreDesc (x : Option String × ℚ)
    (l : List (Option String × ℚ))
    (h : l.Pairwise (fun a b => b.2 ≤ a.2)) :
    (insertScoreDesc x l).Pairwise (fun a b => b.2 ≤ a.2) := by
  induction l with
  | nil => simp [insertScoreDesc]
  | cons y ys ih =>
    obtain ⟨hy, hys⟩ := List.pairwise_cons.mp h
    by_cases hgt : y.2 > x.2
    · simp only [insertScoreDesc, hgt, if_pos]
      refine List.pairwise_cons.mpr ⟨?_, ih hys⟩
      intro z hz
      rcases (mem_insertScoreDesc x z ys).mp hz with rfl | hz2
      · exact le_of_lt hgt
      · exact hy z hz2
    · simp only [insertScoreDesc, hgt, if_neg, not_false_iff]
      refine List.pairwise_cons.mpr ⟨?_, h⟩
      intro z hz
      rcases List.mem_cons.mp hz with rfl | hz2
      · exact le_of_not_lt hgt
      · exact le_trans (hy z hz2) (le_of_not_lt hgt)

lemma pairwise_sortScoreDesc (l : List (Option String × ℚ)) :
    (sortScoreDesc l).Pairwise (fun a b => b.2 ≤ a.2) := by
  induction l with
  | nil => simp [sortScoreDesc]
  | cons x xs ih => exact pairwise_insertScoreDesc x (sortScoreDesc xs) ih

lemma keys_dictAdd (d : List (Option String × ℚ)) (k : Option String) (v : ℚ) :
    (dictAdd d k v).map (fun p => p.1)
      = if k ∈ d.map (fun p => p.1) then d.map (fun p => p.1)
        else d.map (fun p => p.1) ++ [k] := by
  induction d with
  | nil => simp [dictAdd]
  | cons p ps ih =>
    by_cases h : p.1 = k
    · subst h
      simp [dictAdd]
    · have hb : (p.1 == k) = false := by simpa using h
      by_cases hk : k ∈ ps.map (fun p => p.1)
      · simp [dictAdd, hb, ih, hk, Ne.symm h]
      · simp [dictAdd, hb, ih, hk, Ne.symm h]

lemma nodup_keys_dictAdd (d : List (Option String × ℚ)) (k : Option String) (v : ℚ)
    (h : (d.map (fun p => p.1)).Nodup) :
    ((dictAdd d k v).map (fun p => p.1)).Nodup := by
  rw [keys_dictAdd]
  by_cases hk : k ∈ d.map (fun p => p.1)
  · simpa [hk] using h
  · rw [if_neg hk]
    exact List.Nodup.append h (List.nodup_singleton k) (by simpa using hk)

lemma nodup_keys_scoreFold (w : ℚ) (l : List RetrievedChunk)
    (d : List (Option String × ℚ)) (h : (d.map (fun p => p.1)).Nodup) :
    ((scoreFold w l d).map (fun p => p.1)).Nodup := by
  induction l generalizing d with
  | nil => simpa [scoreFold] using h
  | cons c cs ih =>
    have step : scoreFold w (c :: cs) d
        = scoreFold w cs (dictAdd d c.chunk_id (c.score * w)) := rfl
    rw [step]
    exact ih _ (nodup_keys_dictAdd _ _ _ h)

lemma nodup_keys_combinedScores (sem graph : List RetrievedChunk) (ws wg : ℚ) :
    ((combinedScores sem graph ws wg).map (fun p => p.1)).Nodup :=
  nodup_keys_scoreFold wg graph _ (nodup_keys_scoreFold ws sem [] (by simp))

lemma allChunksMap_key_eq (sem graph : List RetrievedChunk) :
    ∀ p ∈ allChunksMap sem graph, p.2.chunk_id = p.1 := by
  have hset : ∀ (d : List (Option String × RetrievedChunk)) (c : RetrievedChunk),
      (∀ p ∈ d, p.2.chunk_id = p.1) → ∀ p ∈ dictSet d c.chunk_id c,
        p.2.chunk_id = p.1 := by
    intro d c hd
    induction d with
    | nil =>
      intro p hp
      simp only [dictSet, List.mem_singleton] at hp
      subst hp
      rfl
    | cons q qs ih =>
      by_cases h : q.1 = c.chunk_id
      · intro p hp
        rw [dictSet] at hp
        simp only [h, beq_self_eq_true, if_pos] at hp
        rcases List.mem_cons.mp hp with rfl | hp2
        · rfl
        · exact hd p (List.mem_cons_of_mem _ hp2)
      · intro p hp
        have hb : (q.1 == c.chunk_id) = false := by simpa using h
        rw [dictSet] at hp
        simp only [hb] at hp
        rcases List.mem_cons.mp hp with rfl | hp2
        · exact hd p (List.mem_cons_self _ _)
        · exact ih (fun r hr => hd r (List.mem_cons_of_mem _ hr)) p hp2
  have hmerge : ∀ (d : List (Option String × RetrievedChunk)) (c : RetrievedChunk),
      (∀ p ∈ d, p.2.chunk_id = p.1) → ∀ p ∈ mergeGraphChunk d c,
        p.2.chunk_id = p.1 := by
    intro d c hd
    induction d with
    | nil =>
      intro p hp
      simp only [mergeGraphChunk, List.mem_singleton] at hp
      subst hp
      rfl
    | cons q qs ih =>
      by_cases h : q.1 = c.chunk_id
      · intro p hp
        have hb : (q.1 == c.chunk_id) = true := by simpa using h
        rw [mergeGraphChunk] at hp
        simp only [hb, if_pos] at hp
        rcases List.mem_cons.mp hp with rfl | hp2
        · by_cases hc : truthyPath c.context_path && !(truthyPath q.2.context_path)
          · simpa [hc] using hd q (List.mem_cons_self _ _)
          · simpa [hc] using hd q (List.mem_cons_self _ _)
        · exact hd p (List.mem_cons_of_mem _ hp2)
      · intro p hp
        have hb : (q.1 == c.chunk_id) = false := by simpa using h
        rw [mergeGraphChunk] at hp
        simp only [hb] at hp
        rcases List.mem_cons.mp hp with rfl | hp2
        · exact hd p (List.mem_cons_self _ _)
        · exact ih (fun r hr => hd r (List.mem_cons_of_mem _ hr)) p hp2
  have hsem : ∀ (l : List RetrievedChunk) (d : List (Option String × RetrievedChunk)),
      (∀ p ∈ d, p.2.chunk_id = p.1) →
      ∀ p ∈ l.foldl (fun d c => dictSet d c.chunk_id c) d, p.2.chunk_id = p.1 := by
    intro l
    induction l with
    | nil => intro d hd; simpa using hd
    | cons c cs ih => intro d hd; exact ih _ (hset d c hd)
  have hgraph : ∀ (l : List RetrievedChunk) (d : List (Option String × RetrievedChunk)),
      (∀ p ∈ d, p.2.chunk_id = p.1) →
      ∀ p ∈ l.foldl mergeGraphChunk d, p.2.chunk_id = p.1 := by
    intro l
    induction l with
    | nil => intro d hd; simpa using hd
    | cons c cs ih => intro d hd; exact ih _ (hmerge d c hd)
  exact hgraph graph _ (hsem sem [] (by simp))

lemma mem_of_lookup_eq (k : Option String) (v : RetrievedChunk)
    (l : List (Option String × RetrievedChunk)) (h : List.lookup k l = some v) :
    (k, v) ∈ l := by
  induction l with
  | nil => simp [List.lookup] at h
  | cons p ps ih =>
    by_cases hk : k = p.1
    · subst hk
      simp only [List.lookup, beq_self_eq_true, Option.some.injEq] at h
      subst h
      exact List.mem_cons_self _ _
    · have hb : (k == p.1) = false := by simpa using hk
      rw [List.lookup] at h
      simp only [hb] at h
      exact List.mem_cons_of_mem _ (ih h)

lemma hybrid_ids_sublist (l : List (Option String × ℚ))
    (ac : List (Option String × RetrievedChunk))
    (hinv : ∀ p ∈ ac, p.2.chunk_id = p.1) :
    ((l.filterMap (fun p => (List.lookup p.1 ac).map
        (fun c => { c with score := p.2 }))).map (fun c => c.chunk_id)).Sublist
      (l.map (fun p => p.1)) := by
  induction l with
  | nil => simp
  | cons p ps ih =>
    cases hl : List.lookup p.1 ac with
    | none => simpa [List.filterMap_cons, hl] using List.Sublist.cons p.1 ih
    | some c =>
      have hc : c.chunk_id = p.1 := hinv (p.1, c) (mem_of_lookup_eq _ _ _ hl)
      simpa [List.filterMap_cons, hl, hc] using List.Sublist.cons₂ p.1 ih

lemma score_of_hybrid_entry (ac : List (Option String × RetrievedChunk))
    (p : Option String × ℚ) (c : RetrievedChunk)
    (h : (List.lookup p.1 ac).map (fun c => { c with score := p.2 }) = some c) :
    c.score = p.2 := by
  cases hl : List.lookup p.1 ac with
  | none => exact Option.noConfusion (hl ▸ h)
  | some d =>
    rw [hl] at h
    injection h with h2
    rw [← h2]

/-- C3 (amended): the fused list produced by the combine step of
hybrid_search contains each chunk_id at most once, whatever the two input
lists contain (the dedup happens here, keyed by chunk_id). -/
theorem hybrid_search_ids_nodup (sem graph : List RetrievedChunk) (ws wg : ℚ)
    (k : ℕ) :
    ((hybrid_search sem graph ws wg k).map (fun c => c.chunk_id)).Nodup := by
  have h1 := nodup_keys_combinedScores sem graph ws wg
  have h2 : ((sortScoreDesc (combinedScores sem graph ws wg)).map
      (fun p => p.1)).Nodup :=
    ((perm_sortScoreDesc _).map _).nodup_iff.mpr h1
  have h3 : (((sortScoreDesc (combinedScores sem graph ws wg)).take k).map
      (fun p => p.1)).Nodup := by
    rw [List.map_take]
    exact List.Nodup.sublist (List.take_sublist _ _) h2
  simp only [hybrid_search]
  exact List.Nodup.sublist
    (hybrid_ids_sublist _ _ (allChunksMap_key_eq sem graph)) h3

/-- Sample Neo4j row for the duplicated-chunk scenario. -/
def demoNeoRow : NeoRow :=
  { chunk_id := "c", text := some "split me twice", modality := some "text",
    page_url := some "pu", asset_url := none, asset_filename := none,
    asset_type := none }

/-- Counterexample to C3 as stated: when two different splits (indices 0
and 1) of the same chunk c rank in the top 2, semantic_search returns the
chunk_id c twice — its result list is not deduplicated. -/
theorem semantic_search_duplicates_counterexample :
    (semantic_search [(9/10, 0), (4/5, 1)] [(0, "c"), (1, "c")] [demoNeoRow]).map
        (fun l => l.map (fun c => c.chunk_id)) = Except.ok [some "c", some "c"]
    ∧ ¬ ([some "c", some "c"] : List (Option String)).Nodup :=
  ⟨rfl, by decide⟩

/-- C5 (amended): the fused output of hybrid_search is sorted by combined
score descending and truncated to at most top_k entries; being a pure
function of its inputs its order is reproducible, but ties keep the
insertion order of the score accumulation (semantic entries before
graph-only entries), they are not broken by chunk_id. -/
theorem hybrid_search_sorted_truncated (sem graph : List RetrievedChunk)
    (ws wg : ℚ) (k : ℕ) :
    (hybrid_search sem graph ws wg k).Pairwise (fun a b => b.score ≤ a.score)
    ∧ (hybrid_search sem graph ws wg k).length ≤ k := by
  constructor
  · have hp : ((sortScoreDesc (combinedScores sem graph ws wg)).take k).Pairwise
        (fun a b => b.2 ≤ a.2) :=
      List.Pairwise.sublist (List.take_sublist _ _) (pairwise_sortScoreDesc _)
    simp only [hybrid_search]
    rw [List.pairwise_filterMap]
    refine hp.imp ?_
    intro a b hab
    intro c hc c' hc'
    rw [score_of_hybrid_entry _ _ _ hc, score_of_hybrid_entry _ _ _ hc']
    exact hab
  · simp only [hybrid_search]
    exact le_trans (List.length_filterMap_le _ _) (List.length_take_le k _)

/-- Semantic-side sample chunk for the tie-break scenario (id b). -/
def demoTieSem : RetrievedChunk :=
  { chunk_id := some "b", text := some "tb", modality := some "text", score := 1,
    source_url := some "u1", source_type := "page" }

/-- Graph-side sample chunk for the tie-break scenario (id a). -/
def demoTieGraA : RetrievedChunk :=
  { chunk_id := some "a", text := some "ta", modality := some "text", score := 1,
    source_url := some "u2", source_type := "page" }

/-- Second graph-side sample chunk for the tie-break scenario (id c). -/
def demoTieGraC : RetrievedChunk :=
  { chunk_id := some "c", text := some "tc", modality := some "text", score := 1,
    source_url := some "u3", source_type := "page" }

/-- Counterexample to C5 as stated: three chunks with ids b, a, c all tie
at combined score 1/2, and the fused order is b, a, c — the insertion
order of the score dict — which is neither ascending nor descending in
chunk_id, so ties are not broken by chunk_id. -/
theorem hybrid_search_tiebreak_counterexample :
    (hybrid_search [demoTieSem] [demoTieGraA, demoTieGraC] (1/2) (1/2) 10).map
        (fun c => c.chunk_id) = [some "b", some "a", some "c"]
    ∧ (hybrid_search [demoTieSem] [demoTieGraA, demoTieGraC] (1/2) (1/2) 10).map
        (fun c => c.score) = [1/2, 1/2, 1/2] := by
  have h1 : (sortScoreDesc (combinedScores [demoTieSem] [demoTieGraA, demoTieGraC]
      (1/2) (1/2))).take 10
      = [(some "b", 1/2), (some "a", 1/2), (some "c", 1/2)] := by
    norm_num [combinedScores, scoreFold, dictAdd, sortScoreDesc, insertScoreDesc,
      demoTieSem, demoTieGraA, demoTieGraC]
  have h2 : List.lookup (some "b")
      (allChunksMap [demoTieSem] [demoTieGraA, demoTieGraC]) = some demoTieSem := by
    decide
  have h3 : List.lookup (some "a")
      (allChunksMap [demoTieSem] [demoTieGraA, demoTieGraC]) = some demoTieGraA := by
    decide
  have h4 : List.lookup (some "c")
      (allChunksMap [demoTieSem] [demoTieGraA, demoTieGraC]) = some demoTieGraC := by
    decide
  constructor <;>
  · simp only [hybrid_search, h1, List.filterMap_cons, h2, h3, h4, Option.map,
      List.filterMap_nil, List.map_cons, List.map_nil]
    try rfl

/-! ## Lemmas about the graph walk (claims C2 and C6) -/

lemma mem_insertRowAsc (x z : WalkRow) (l : List WalkRow) :
    z ∈ insertRowAsc x l ↔ z = x ∨ z ∈ l := by
  induction l with
  | nil => simp [insertRowAsc]
  | cons y ys ih =>
    by_cases h : rowKeyLt x y
    · simp [insertRowAsc, h]
    · simp [insertRowAsc, h, ih]
      tauto

lemma mem_sortRowsAsc (z : WalkRow) (l : List WalkRow) :
    z ∈ sortRowsAsc l ↔ z ∈ l := by
  induction l with
  | nil => simp [sortRowsAsc]
  | cons x xs ih => simp [sortRowsAsc, mem_insertRowAsc, ih]

lemma mem_dedupKeepFirst (z : WalkRow) (l : List WalkRow)
    (h : z ∈ dedupKeepFirst l) : z ∈ l := by
  have aux : ∀ (l acc : List WalkRow),
      z ∈ l.foldl (fun acc r => if r ∈ acc then acc else acc ++ [r]) acc →
      z ∈ acc ∨ z ∈ l := by
    intro l
    induction l with
    | nil => intro acc h2; exact Or.inl h2
    | cons r rs ih =>
      intro acc h2
      rcases ih _ h2 with hacc | hrs
      · have hacc2 : z ∈ (if r ∈ acc then acc else acc ++ [r]) := hacc
        by_cases hmem : r ∈ acc
        · rw [if_pos hmem] at hacc2
          exact Or.inl hacc2
        · rw [if_neg hmem] at hacc2
          rcases List.mem_append.mp hacc2 with h3 | h3
          · exact Or.inl h3
          · refine Or.inr ?_
            rw [List.mem_singleton.mp h3]
            exact List.mem_cons_self r rs
      · exact Or.inr (List.mem_cons_of_mem _ hrs)
  rcases aux l [] h with h2 | h2
  · simp at h2
  · exact h2

lemma adjSteps_edge (g : Graph) (cur : String) (used : List ℕ)
    (s : GEdge × String) (hs : s ∈ adjSteps g cur used) :
    ∃ e ∈ g.edges, e.src = cur ∧ e.dst = s.2 ∨ e.src = s.2 ∧ e.dst = cur := by
  obtain ⟨e, he, rfl⟩ := List.mem_map.mp hs
  obtain ⟨hmem, hpred⟩ := List.mem_filter.mp he
  refine ⟨e, hmem, ?_⟩
  have hor : (e.src == cur) = true ∨ (e.dst == cur) = true := by
    have hpred2 := hpred
    simp only [Bool.and_eq_true, Bool.or_eq_true] at hpred2
    exact hpred2.2
  by_cases hsrc : (e.src == cur) = true
  · left
    exact ⟨beq_iff_eq.mp hsrc, by simp [hsrc]⟩
  · have hdst : e.dst = cur := beq_iff_eq.mp (hor.resolve_left hsrc)
    right
    exact ⟨by simp [hsrc], hdst⟩

lemma walkPathsFrom_spec (g : Graph) :
    ∀ (fuel : ℕ) (cur : String) (used : List ℕ) (accRev : List String),
      ∀ trip ∈ walkPathsFrom g fuel cur used accRev,
        accRev.length ≤ trip.1 ∧ trip.1 < accRev.length + fuel
        ∧ ReachableWithin g cur trip.2.1 (trip.1 + 1 - accRev.length) := by
  intro fuel
  induction fuel with
  | zero =>
    intro cur used accRev trip htrip
    simp [walkPathsFrom] at htrip
  | succ fuel ih =>
    intro cur used accRev trip htrip
    rw [walkPathsFrom] at htrip
    obtain ⟨s, hs, hmem⟩ := List.mem_flatMap.mp htrip
    obtain ⟨e, he, hor⟩ := adjSteps_edge g cur used s hs
    rcases List.mem_cons.mp hmem with rfl | hrec
    · refine ⟨le_refl _, by omega, ?_⟩
      have h1 : accRev.length + 1 - accRev.length = 1 := by omega
      rw [h1]
      exact ReachableWithin.step cur s.2 s.2 0 e he hor
        (ReachableWithin.refl s.2 0)
    · obtain ⟨hlo, hhi, hreach⟩ := ih s.2 (s.1.eid :: used) (s.2 :: accRev) trip hrec
      simp only [List.length_cons] at hlo hhi hreach
      refine ⟨by omega, by omega, ?_⟩
      have h1 : trip.1 + 1 - (accRev.length + 1) = trip.1 - accRev.length := by omega
      rw [h1] at hreach
      have h2 : trip.1 + 1 - accRev.length = (trip.1 - accRev.length) + 1 := by omega
      rw [h2]
      exact ReachableWithin.step cur s.2 trip.2.1 _ e he hor hreach

lemma seedRows_spec (g : Graph) (term seed : String) (max_depth : ℕ) :
    ∀ r ∈ seedRows g term seed max_depth,
      1 ≤ r.depth ∧ r.depth ≤ max_depth
      ∧ ReachableWithin g seed r.source_url r.depth := by
  intro r hr
  rw [seedRows] at hr
  cases hfind : findNode g seed with
  | none => simp only [hfind] at hr; simp at hr
  | some sn =>
    simp only [hfind] at hr
    by_cases hlab : sn.label = NodeLabel.Page
    · rw [if_pos hlab] at hr
      obtain ⟨trip, htrip, hmem⟩ := List.mem_flatMap.mp hr
      obtain ⟨hlo, hhi, hreach⟩ :=
        walkPathsFrom_spec g max_depth seed [] [seed] trip htrip
      simp only [List.length_singleton, Nat.add_sub_cancel] at hlo hhi hreach
      have hset : r.depth = trip.1 ∧ r.source_url = trip.2.1 := by
        cases hend : findNode g trip.2.1 with
        | none => simp only [hend] at hmem; simp at hmem
        | some en =>
          simp only [hend] at hmem
          split at hmem
          · have h5 := List.mem_singleton.mp hmem
            subst h5
            exact ⟨rfl, rfl⟩
          · obtain ⟨c, hc, rfl⟩ := List.mem_map.mp hmem
            exact ⟨rfl, rfl⟩
      obtain ⟨hd, hu⟩ := hset
      rw [hd, hu]
      exact ⟨hlo, by omega, hreach⟩
    · rw [if_neg hlab] at hr
      simp at hr

lemma graph_walk_rows_spec (g : Graph) (term : String) (start_urls : List String)
    (max_depth : ℕ) :
    ∀ r ∈ graph_walk_rows g term start_urls max_depth,
      1 ≤ r.depth ∧ r.depth ≤ max_depth
      ∧ ∃ s ∈ start_urls, ReachableWithin g s r.source_url r.depth := by
  intro r hr
  rw [graph_walk_rows] at hr
  have hr2 := mem_dedupKeepFirst r _ ((mem_sortRowsAsc r _).mp hr)
  obtain ⟨s, hs, hmem⟩ := List.mem_flatMap.mp hr2
  obtain ⟨h1, h2, h3⟩ := seedRows_spec g term s max_depth r hmem
  exact ⟨h1, h2, s, hs, h3⟩

/-- The spec's cycle scenario: PageA --LINKS_TO--> PageB --LINKS_TO-->
PageA, each page owning one chunk whose text contains the term owl. -/
def cycleGraph : Graph :=
  { nodes := [⟨"urlA", some "PageA", NodeLabel.Page⟩,
              ⟨"urlB", some "PageB", NodeLabel.Page⟩]
    edges := [⟨0, "urlA", "urlB"⟩, ⟨1, "urlB", "urlA"⟩]
    owns := [("urlA", ⟨"cA", some "owl facts a", some "text"⟩),
             ("urlB", ⟨"cB", some "owl facts b", some "text"⟩)] }

/-- The row the cycle walk reports for PageB's chunk (depth 1). -/
def demoCycleRowB : WalkRow :=
  ⟨some "cB", some "owl facts b", some "text", "urlB", some "PageB", "Page", 1,
   ["urlA", "urlB"]⟩

/-- The row the cycle walk reports for PageA's chunk (depth 2, via the
path urlA - urlB - urlA). -/
def demoCycleRowA : WalkRow :=
  ⟨some "cA", some "owl facts a", some "text", "urlA", some "PageA", "Page", 2,
   ["urlA", "urlB", "urlA"]⟩

/-- C6: for every graph (cyclic or not), seed list and max_depth, every
row of the seeded walk has depth between 1 and max_depth and its source
node is reachable from some seed within that many undirected hops — the
traversal is depth-bounded; it is also total (graph_walk_rows is a
terminating function, evaluated on the A-B-A cycle in the witness). -/
theorem graph_walk_depth_bounded (g : Graph) (term : String)
    (start_urls : List String) (max_depth : ℕ) :
    ∀ r ∈ graph_walk_rows g term start_urls max_depth,
      1 ≤ r.depth ∧ r.depth ≤ max_depth
      ∧ ∃ s ∈ start_urls, ReachableWithin g s r.source_url r.depth :=
  graph_walk_rows_spec g term start_urls max_depth

/-- Witness: the depth bound evaluated on the cyclic graph A - B - A with
max_depth 5; the walk terminates and the PageB row at depth 1 satisfies
the bound. -/
theorem graph_walk_depth_bounded_witness :
    1 ≤ demoCycleRowB.depth ∧ demoCycleRowB.depth ≤ 5
    ∧ ∃ s ∈ ["urlA"], ReachableWithin cycleGraph s demoCycleRowB.source_url
        demoCycleRowB.depth :=
  graph_walk_depth_bounded cycleGraph "owl" ["urlA"] 5 demoCycleRowB (by decide)

/-- C2 (amended): every chunk the seeded walk returns is scored
1 / (depth + 1) for the depth of a discovered path of length 1..max_depth;
the seed itself is NOT reported at depth 0 — in the cycle PageA -->
PageB --> PageA with seed PageA and max_depth 5 the walk terminates and
reports PageB at depth 1 (score 1/2) and PageA at depth 2 (score 1/3),
because the Cypher pattern is [:LINKS_TO|CONTAINS*1..max_depth] and rows
are distinct per (depth, path), not collapsed to the shallowest depth. -/
theorem graph_walk_score_law :
    (∀ (g : Graph) (q : String) (seeds : List String) (maxd : ℕ),
      ∀ c ∈ graph_walk_search g q seeds maxd,
        ∃ r ∈ graph_walk_rows g (mainTerm q) seeds maxd,
          c = rowToChunk r ∧ c.score = 1 / ((r.depth : ℚ) + 1)
          ∧ 1 ≤ r.depth ∧ r.depth ≤ maxd)
    ∧ (graph_walk_search cycleGraph "owl" ["urlA"] 5).map
        (fun c => (c.chunk_id, c.score)) = [(some "cB", 1/2), (some "cA", 1/3)] := by
  constructor
  · intro g q seeds maxd c hc
    rw [graph_walk_search] at hc
    obtain ⟨r, hr, rfl⟩ := List.mem_map.mp hc
    obtain ⟨h1, h2, -⟩ := graph_walk_rows_spec g (mainTerm q) seeds maxd r hr
    exact ⟨r, hr, rfl, rfl, h1, h2⟩
  · have hrows : graph_walk_rows cycleGraph (mainTerm "owl") ["urlA"] 5
        = [demoCycleRowB, demoCycleRowA] := by decide
    rw [graph_walk_search, hrows]
    norm_num [rowToChunk, demoCycleRowB, demoCycleRowA]

/-- Witness: the score law applied to the PageB chunk of the cycle walk. -/
theorem graph_walk_score_law_witness :
    ∃ r ∈ graph_walk_rows cycleGraph (mainTerm "owl") ["urlA"] 5,
      rowToChunk demoCycleRowB = rowToChunk r
      ∧ (rowToChunk demoCycleRowB).score = 1 / ((r.depth : ℚ) + 1)
      ∧ 1 ≤ r.depth ∧ r.depth ≤ 5 := by
  have hrows : graph_walk_rows cycleGraph (mainTerm "owl") ["urlA"] 5
      = [demoCycleRowB, demoCycleRowA] := by decide
  exact graph_walk_score_law.1 cycleGraph "owl" ["urlA"] 5
    (rowToChunk demoCycleRowB)
    (by rw [graph_walk_search, hrows]; exact List.mem_map_of_mem _ (by simp))

/-- Counterexample to C2 as stated: in the cycle scenario the code reports
exactly PageB's chunk at depth 1 (score 1/2) and PageA's chunk at depth 2
(score 1/3); no result carries score 1.0, so the seed PageA is not
reported at depth 0, and PageA IS reported again at depth 2. -/
theorem graph_walk_seed_depth_counterexample :
    (graph_walk_search cycleGraph "owl" ["urlA"] 5).map
        (fun c => (c.chunk_id, c.score)) = [(some "cB", 1/2), (some "cA", 1/3)]
    ∧ (1 : ℚ) ∉ (graph_walk_search cycleGraph "owl" ["urlA"] 5).map
        (fun c => c.score) := by
  have hrows : graph_walk_rows cycleGraph (mainTerm "owl") ["urlA"] 5
      = [demoCycleRowB, demoCycleRowA] := by decide
  constructor
  · rw [graph_walk_search, hrows]
    norm_num [rowToChunk, demoCycleRowB, demoCycleRowA]
  · rw [graph_walk_search, hrows]
    norm_num [rowToChunk, demoCycleRowB, demoCycleRowA]

/-! ## Lemmas about keyword extraction and the match filter (claim C4) -/

lemma runMaxLen_spec (xs : List String) (m : String) :
    (runMaxLen m xs = m ∧ ∀ t ∈ xs, t.length ≤ m.length)
    ∨ (∃ l1 l2, xs = l1 ++ runMaxLen m xs :: l2
        ∧ m.length < (runMaxLen m xs).length
        ∧ (∀ t ∈ l1, t.length < (runMaxLen m xs).length)
        ∧ (∀ t ∈ l2, t.length ≤ (runMaxLen m xs).length)) := by
  induction xs generalizing m with
  | nil => exact Or.inl ⟨rfl, by simp⟩
  | cons t ts ih =>
    by_cases h : t.length > m.length
    · have hstep : runMaxLen m (t :: ts) = runMaxLen t ts := by
        rw [runMaxLen, if_pos h]
      rw [hstep]
      rcases ih t with ⟨he, hall⟩ | ⟨l1, l2, hsplit, hlt, h1, h2⟩
      · refine Or.inr ⟨[], ts, ?_, ?_, by simp, ?_⟩
        · rw [he]
          simp
        · rw [he]
          exact h
        · intro x hx
          rw [he]
          exact hall x hx
      · refine Or.inr ⟨t :: l1, l2, ?_, lt_trans h hlt, ?_, h2⟩
        · rw [List.cons_append, ← hsplit]
        · intro x hx
          rcases List.mem_cons.mp hx with rfl | hx2
          · exact hlt
          · exact h1 x hx2
    · have hstep : runMaxLen m (t :: ts) = runMaxLen m ts := by
        rw [runMaxLen, if_neg h]
      rw [hstep]
      rcases ih m with ⟨he, hall⟩ | ⟨l1, l2, hsplit, hlt, h1, h2⟩
      · refine Or.inl ⟨he, ?_⟩
        intro x hx
        rcases List.mem_cons.mp hx with rfl | hx2
        · exact le_of_not_lt h
        · exact hall x hx2
      · refine Or.inr ⟨t :: l1, l2, ?_, hlt, ?_, h2⟩
        · rw [List.cons_append, ← hsplit]
        · intro x hx
          rcases List.mem_cons.mp hx with rfl | hx2
          · exact lt_of_le_of_lt (le_of_not_lt h) hlt
          · exact h1 x hx2

lemma seedRows_chunk_match (g : Graph) (term seed : String) (max_depth : ℕ)
    (r : WalkRow) (hr : r ∈ seedRows g term seed max_depth) (cid : String)
    (hcid : r.chunk_id = some cid) :
    ∃ oc ∈ g.owns, oc.2.id = cid
      ∧ chunkRowMatches term oc.2 r.source_title = true := by
  rw [seedRows] at hr
  cases hfind : findNode g seed with
  | none => simp only [hfind] at hr; simp at hr
  | some sn =>
    simp only [hfind] at hr
    by_cases hlab : sn.label = NodeLabel.Page
    · rw [if_pos hlab] at hr
      obtain ⟨trip, htrip, hmem⟩ := List.mem_flatMap.mp hr
      cases hend : findNode g trip.2.1 with
      | none => simp only [hend] at hmem; simp at hmem
      | some en =>
        simp only [hend] at hmem
        split at hmem
        · have h5 := List.mem_singleton.mp hmem
          rw [h5] at hcid
          simp at hcid
        · obtain ⟨c, hc, rfl⟩ := List.mem_map.mp hmem
          obtain ⟨oc, hoc, rfl⟩ := List.mem_map.mp hc
          obtain ⟨hocmem, hpred⟩ := List.mem_filter.mp hoc
          have hmatch : chunkRowMatches term oc.2 en.title = true :=
            (Bool.and_eq_true _ _ ▸ hpred).2
          refine ⟨oc, hocmem, ?_, hmatch⟩
          exact (by simpa using hcid.symm : cid = oc.2.id).symm
    · rw [if_neg hlab] at hr
      simp at hr

/-- C4 (amended): the match term is the longest word token of the
LOWERCASED query, ties broken by first occurrence (the token list splits
as shorter-tokens ++ term :: not-longer-tokens); and every chunk the
seeded walk returns passed chunkRowMatches, the CASE-SENSITIVE Cypher
CONTAINS filter of the lowercase term against chunk text or source
title — not a case-insensitive one. -/
theorem keyword_extraction_longest_first :
    (∀ q : String, wordTokens (pyLower q) ≠ [] →
      ∃ l1 l2, wordTokens (pyLower q) = l1 ++ mainTerm q :: l2
        ∧ (∀ t ∈ l1, t.length < (mainTerm q).length)
        ∧ (∀ t ∈ l2, t.length ≤ (mainTerm q).length))
    ∧ (∀ (g : Graph) (q : String) (seeds : List String) (maxd : ℕ),
      ∀ r ∈ graph_walk_rows g (mainTerm q) seeds maxd, ∀ cid : String,
        r.chunk_id = some cid →
        ∃ oc ∈ g.owns, oc.2.id = cid
          ∧ chunkRowMatches (mainTerm q) oc.2 r.source_title = true) := by
  constructor
  · intro q hne
    cases hts : wordTokens (pyLower q) with
    | nil => exact absurd hts hne
    | cons t ts =>
      have hmain : mainTerm q = runMaxLen t ts := by
        rw [mainTerm, hts, pyMaxByLen]
      rw [hmain]
      rcases runMaxLen_spec ts t with ⟨he, hall⟩ | ⟨l1, l2, hsplit, hlt, h1, h2⟩
      · refine ⟨[], ts, ?_, by simp, ?_⟩
        · rw [he]
          simp
        · intro x hx
          rw [he]
          exact hall x hx
      · refine ⟨t :: l1, l2, ?_, ?_, h2⟩
        · rw [List.cons_append, ← hsplit]
        · intro x hx
          rcases List.mem_cons.mp hx with rfl | hx2
          · exact hlt
          · exact h1 x hx2
  · intro g q seeds maxd r hr cid hcid
    rw [graph_walk_rows] at hr
    have hr2 := mem_dedupKeepFirst r _ ((mem_sortRowsAsc r _).mp hr)
    obtain ⟨s, hs, hmem⟩ := List.mem_flatMap.mp hr2
    exact seedRows_chunk_match g (mainTerm q) s maxd r hmem cid hcid

/-- Witness: the extraction picks walker (longest token) from the query
graph owl walker, and the cycle walk's PageB chunk passed the
case-sensitive filter. -/
theorem keyword_extraction_longest_first_witness :
    (∃ l1 l2, wordTokens (pyLower "graph owl walker")
        = l1 ++ mainTerm "graph owl walker" :: l2
      ∧ (∀ t ∈ l1, t.length < (mainTerm "graph owl walker").length)
      ∧ (∀ t ∈ l2, t.length ≤ (mainTerm "graph owl walker").length))
    ∧ (∃ oc ∈ cycleGraph.owns, oc.2.id = "cB"
        ∧ chunkRowMatches (mainTerm "owl") oc.2 demoCycleRowB.source_title = true) :=
  ⟨keyword_extraction_longest_first.1 "graph owl walker" (by decide),
   keyword_extraction_longest_first.2 cycleGraph "owl" ["urlA"] 5 demoCycleRowB
     (by decide) "cB" rfl⟩

/-- Graph for the case-sensitivity scenario: seed page P links to page Q,
whose only chunk says Mammals are great (capital M) and whose title is
null. -/
def caseGraph : Graph :=
  { nodes := [⟨"urlP", some "Zoo", NodeLabel.Page⟩,
              ⟨"urlQ", none, NodeLabel.Page⟩]
    edges := [⟨0, "urlP", "urlQ"⟩]
    owns := [("urlQ", ⟨"cQ", some "Mammals are great", some "text"⟩)] }

/-- Counterexample to C4 as stated: for the query Mammals the term is
mammals (lowercased), and the chunk whose text contains Mammals does NOT
match — the walk reports a null-chunk row for urlQ instead of the chunk —
although the case-insensitive predicate of the claim accepts it. -/
theorem keyword_match_case_counterexample :
    (graph_walk_rows caseGraph (mainTerm "Mammals") ["urlP"] 1).map
        (fun r => r.chunk_id) = [none]
    ∧ chunkRowMatches (mainTerm "Mammals")
        ⟨"cQ", some "Mammals are great", some "text"⟩ none = false
    ∧ chunkRowMatchesCI (mainTerm "Mammals")
        ⟨"cQ", some "Mammals are great", some "text"⟩ none = true := by
  decide

/-! ## Claims C7 and C8: build and load error behaviour -/

/-- C7 (amended): whenever no chunk yields a non-empty split, the build
prints a message and RETURNS EARLY without raising — noChunks for an
empty chunk query, noValidText otherwise — and no exception (in
particular no EmptyCorpusError) is raised on any input; the index simply
stays unbuilt. -/
theorem build_vector_index_returns_early (split : String → List String)
    (chunks : List DbChunk) (h : allSplitTexts split chunks = []) :
    (build_vector_index split chunks = BuildOutcome.noChunks
      ∨ build_vector_index split chunks = BuildOutcome.noValidText)
    ∧ ∀ msg, build_vector_index split chunks ≠ BuildOutcome.raised msg := by
  rw [build_vector_index]
  by_cases hc : chunks.isEmpty
  · rw [if_pos hc]
    exact ⟨Or.inl rfl, fun msg => by simp⟩
  · rw [if_neg hc, h]
    exact ⟨Or.inr (by simp), fun msg => by simp⟩

/-- A chunk whose text is all whitespace (dropped by the strip check). -/
def demoBlankChunk : DbChunk := ⟨"c1", some "   ", some "text"⟩

/-- Witness: the early-return law evaluated on the all-whitespace corpus. -/
theorem build_vector_index_returns_early_witness :
    (build_vector_index (fun s => [s]) [demoBlankChunk] = BuildOutcome.noChunks
      ∨ build_vector_index (fun s => [s]) [demoBlankChunk] = BuildOutcome.noValidText)
    ∧ ∀ msg, build_vector_index (fun s => [s]) [demoBlankChunk]
        ≠ BuildOutcome.raised msg :=
  build_vector_index_returns_early (fun s => [s]) [demoBlankChunk] (by decide)

/-- Counterexample to C7 as stated: on an empty corpus the build returns
the early-return value noChunks (after printing a message) — it does not
fail with an EmptyCorpusError; and on an all-whitespace corpus it returns
noValidText, likewise without raising. -/
theorem build_vector_index_no_exception_counterexample :
    build_vector_index (fun s => [s]) [] = BuildOutcome.noChunks
    ∧ build_vector_index (fun s => [s]) [] ≠ BuildOutcome.raised "EmptyCorpusError"
    ∧ build_vector_index (fun s => [s]) [demoBlankChunk] = BuildOutcome.noValidText := by
  decide

/-- A persisted directory whose artifacts disagree: the FAISS index holds
2 vectors but the mapping has a single entry. -/
def demoCorruptDir : OfflineDir :=
  { dirExists := true
    faiss_index_bin := some 2
    mappings_json := some ⟨[((0:ℤ), "c0")], [("c0", [(0:ℤ)])]⟩
    config_json := some ⟨"all-MiniLM-L6-v2", 1, 2⟩ }

/-- C8 (amended): load_offline performs no cross-validation at all —
whenever the directory, mappings.json and config.json exist it loads
every artifact as-is and succeeds, regardless of whether the mapping and
index record counts agree (and a missing faiss_index.bin is silently
skipped). -/
theorem load_offline_no_count_validation (files : OfflineDir)
    (m : MappingsFile) (cfg : ConfigFile) (hd : files.dirExists = true)
    (hm : files.mappings_json = some m) (hc : files.config_json = some cfg) :
    load_offline files = Except.ok
      ⟨files.faiss_index_bin, m.index_to_chunk_id, m.chunk_id_to_index, cfg⟩ := by
  simp [load_offline, hd, hm, hc]

/-- Witness: the no-validation law applied to the mismatched directory. -/
theorem load_offline_no_count_validation_witness :
    load_offline demoCorruptDir = Except.ok
      ⟨demoCorruptDir.faiss_index_bin, [((0:ℤ), "c0")], [("c0", [(0:ℤ)])],
       ⟨"all-MiniLM-L6-v2", 1, 2⟩⟩ :=
  load_offline_no_count_validation demoCorruptDir _ _ rfl rfl rfl

/-- Counterexample to C8 as stated: a directory whose index artifact holds
2 records while the mapping artifact holds 1 loads successfully — no
CorruptIndexError, no rejection. -/
theorem load_offline_accepts_mismatch_counterexample :
    load_offline demoCorruptDir = Except.ok
      ⟨some 2, [((0:ℤ), "c0")], [("c0", [(0:ℤ)])], ⟨"all-MiniLM-L6-v2", 1, 2⟩⟩
    ∧ ([((0:ℤ), "c0")] : List (ℤ × String)).length ≠ 2 :=
  ⟨rfl, by decide⟩

/-! ## Claim C9: the Context Enricher (multimodal_search) -/

/-- Expected per-chunk enrichment when every lookup succeeds: page
results get their related assets attached (None for an empty list),
everything else passes through unchanged. -/
def enrichOk (getAssets : Option String → Except String (List AssetDict))
    (include_assets : Bool) (c : RetrievedChunk) : RetrievedChunk :=
  if c.source_type == "page" && include_assets then
    match getAssets c.source_url with
    | Except.ok l => { c with related_assets := if l.isEmpty then none else some l }
    | Except.error _ => c
  else c

/-- C9 (amended): when every related-assets lookup succeeds,
multimodal_search succeeds and only attaches related_assets — the
chunk_id and score sequence (hence order and ranking) of the semantic
results is unchanged.  (When a lookup fails the whole call fails; see the
counterexample.) -/
theorem multimodal_preserves_ranking
    (getAssets : Option String → Except String (List AssetDict))
    (include_assets : Bool) (semantic_results : List RetrievedChunk)
    (h : ∀ u, ∃ l, getAssets u = Except.ok l) :
    multimodal_search getAssets include_assets semantic_results
      = Except.ok (semantic_results.map (enrichOk getAssets include_assets))
    ∧ (semantic_results.map (enrichOk getAssets include_assets)).map
        (fun c => (c.chunk_id, c.score))
      = semantic_results.map (fun c => (c.chunk_id, c.score)) := by
  constructor
  · induction semantic_results with
    | nil => rfl
    | cons c cs ih =>
      rw [multimodal_search] at ih ⊢
      rw [List.mapM_cons, ih]
      by_cases hc : (c.source_type == "page" && include_assets) = true
      · obtain ⟨l, hl⟩ := h c.source_url
        simp [hc, hl, enrichOk, Except.bind]
        try rfl
      · simp only [Bool.not_eq_true] at hc
        simp [hc, enrichOk, Except.bind]
        try rfl
  · have hproj : ∀ c, ((enrichOk getAssets include_assets c).chunk_id,
        (enrichOk getAssets include_assets c).score) = (c.chunk_id, c.score) := by
      intro c
      rw [enrichOk]
      by_cases hc : (c.source_type == "page" && include_assets) = true
      · rw [if_pos hc]
        cases getAssets c.source_url <;> simp
      · rw [if_neg hc]
    rw [List.map_map]
    exact List.map_congr_left (fun c _ => hproj c)

/-- A page-typed semantic result used to exercise the enricher. -/
def demoPageChunk : RetrievedChunk :=
  { chunk_id := some "p1", text := some "page text", modality := some "text",
    score := 1, source_url := some "pageU", source_type := "page" }

/-- Witness: the preservation law with an always-succeeding (empty)
asset lookup over one page result. -/
theorem multimodal_preserves_ranking_witness :
    multimodal_search (fun _ => Except.ok []) true [demoPageChunk]
      = Except.ok ([demoPageChunk].map (enrichOk (fun _ => Except.ok []) true))
    ∧ ([demoPageChunk].map (enrichOk (fun _ => Except.ok []) true)).map
        (fun c => (c.chunk_id, c.score))
      = [demoPageChunk].map (fun c => (c.chunk_id, c.score)) :=
  multimodal_preserves_ranking (fun _ => Except.ok []) true [demoPageChunk]
    (fun _ => ⟨[], rfl⟩)

/-- Counterexample to C9 as stated: when the related-assets lookup for a
page result fails (backing store unavailable), multimodal_search
propagates the error — it fails the overall retrieval instead of
degrading silently to no related assets. -/
theorem multimodal_error_propagates_counterexample :
    multimodal_search (fun _ => Except.error "ServiceUnavailable") true
      [demoPageChunk] = Except.error "ServiceUnavailable" := rfl

/-! ## Claim C10: totality of the offline search -/

lemma lookupZ_mem (k : ℤ) (v : String) (l : List (ℤ × String))
    (h : List.lookup k l = some v) : (k, v) ∈ l := by
  induction l with
  | nil => simp [List.lookup] at h
  | cons p ps ih =>
    by_cases hk : k = p.1
    · subst hk
      simp only [List.lookup, beq_self_eq_true, Option.some.injEq] at h
      subst h
      exact List.mem_cons_self _ _
    · have hb : (k == p.1) = false := by simpa using hk
      rw [List.lookup] at h
      simp only [hb] at h
      exact List.mem_cons_of_mem _ (ih h)

/-- C10: offline search is total over the nearest-neighbour output — it
returns at most top_k results (one FAISS row per requested neighbour),
and every result corresponds to an index present in index_to_chunk_id and
to a chunk row present in the SQLite store; index positions missing from
the mapping (such as the -1 padding of exact search) and chunk ids
without a metadata row are silently skipped, never raised on. -/
theorem offline_search_total (neighbors : List (ℚ × ℤ))
    (index_to_chunk_id : List (ℤ × String)) (db : List SqliteChunkRow)
    (top_k : ℕ) (h : neighbors.length = top_k) :
    (offline_search neighbors index_to_chunk_id db).length ≤ top_k
    ∧ ∀ r ∈ offline_search neighbors index_to_chunk_id db,
        (∃ i : ℤ, (i, r.chunk_id) ∈ index_to_chunk_id)
        ∧ ∃ row ∈ db, row.chunk_id = r.chunk_id := by
  constructor
  · rw [← h, offline_search]
    exact List.length_filterMap_le _ _
  · intro r hr
    rw [offline_search] at hr
    obtain ⟨p, hp, hf⟩ := List.mem_filterMap.mp hr
    cases hl : List.lookup p.2 index_to_chunk_id with
    | none =>
      simp only [hl] at hf
      exact absurd hf (by simp)
    | some cid =>
      simp only [hl] at hf
      cases hdb : db.find? (fun row => row.chunk_id == cid) with
      | none =>
        simp only [hdb] at hf
        exact absurd hf (by simp)
      | some row =>
        simp only [hdb] at hf
        injection hf with hf2
        have hrid : r.chunk_id = row.chunk_id := by rw [← hf2]
        have hpred := List.find?_some hdb
        have hcid : row.chunk_id = cid := beq_iff_eq.mp hpred
        constructor
        · exact ⟨p.2, by rw [hrid, hcid]; exact lookupZ_mem _ _ _ hl⟩
        · exact ⟨row, List.mem_of_find?_eq_some hdb, hrid.symm⟩

/-- A SQLite chunk row for the offline-search witness. -/
def demoSqliteRow : SqliteChunkRow :=
  ⟨"x", some "tx", some "text", some "pu", none, none, none, some "pu",
   some "page", some "pu"⟩

/-- The single result the offline search returns in the witness scenario
(the -1 padding neighbour is skipped). -/
def demoOfflineResult : OfflineResult :=
  ⟨"x", some "tx", some "text", some "pu", some "page", some "pu", 1/2⟩

/-- Witness: top_k = 2 but only index 0 resolves (index -1 is the FAISS
padding and is skipped); the call returns one result within the bound,
whose chunk is present in the mapping and the store. -/
theorem offline_search_total_witness :
    (offline_search [((1:ℚ)/2, (0:ℤ)), (0, -1)] [((0:ℤ), "x")]
        [demoSqliteRow]).length ≤ 2
    ∧ (∃ i : ℤ, (i, demoOfflineResult.chunk_id) ∈ [((0:ℤ), "x")])
    ∧ ∃ row ∈ [demoSqliteRow], row.chunk_id = demoOfflineResult.chunk_id := by
  have happ := offline_search_total [((1:ℚ)/2, (0:ℤ)), (0, -1)] [((0:ℤ), "x")]
    [demoSqliteRow] 2 rfl
  have hout : offline_search [((1:ℚ)/2, (0:ℤ)), (0, -1)] [((0:ℤ), "x")]
      [demoSqliteRow] = [demoOfflineResult] := rfl
  exact ⟨happ.1, happ.2 demoOfflineResult (hout ▸ List.mem_cons_self _ _)⟩
